import Mathlib

/-!
Verification of the PageRank estimator (`pagerank.py`) against its
natural-language specification.

The Python program is shallowly embedded over exact rationals:
dictionaries over page names become association lists or functions
`String → _`, Python `round(x, 4)` becomes `round4`, and the
possibly-crashing / possibly-nonterminating iterative loop becomes a
fuel-indexed function into a `PyResult` that distinguishes a normal
return, an uncaught runtime error (`UnboundLocalError`), and fuel
exhaustion.  Randomness in the sampling estimator is abstracted as an
injected stream of indices: `random.choices` over a population is
modelled as picking `population[stream i % len(population)]`, which
ranges over every element any actual run could pick.
-/

namespace PageRank

/-- A corpus: the dictionary keys (pages, in insertion order) together with
each page's set of outbound links, given as a list.  Mirrors the Python
dict `corpus : page -> set of pages` produced by `crawl`. -/
structure Corpus where
  keys : List String
  links : String → List String

/-- The corpus invariant guaranteed by the excluded ingestion step
(`crawl`): keys are distinct, each link set is duplicate-free, every
linked page is itself a corpus key, and no page links to itself. -/
def Corpus.Valid (c : Corpus) : Prop :=
  c.keys.Nodup ∧
    ∀ p ∈ c.keys, (c.links p).Nodup ∧ (∀ q ∈ c.links p, q ∈ c.keys) ∧ p ∉ c.links p

instance (c : Corpus) : Decidable c.Valid := by
  unfold Corpus.Valid
  infer_instance

/-- Python `round(x, 4)`: round to four decimal places.  (Python uses
round-half-to-even on the underlying binary float; ties at an exact
decimal half are immaterial for every statement below, which only uses
that the result is within `1/20000` of the argument.) -/
def round4 (q : ℚ) : ℚ := (round (q * 10000) : ℤ) / 10000

/-- Embedding of `transition_model(corpus, page, damping_factor)`.
Returns `none` exactly when the Python code raises `KeyError`
(`corpus[page]` with `page` not a key).  Otherwise it builds the
probability dict: if `page` has no outbound links every page gets
`d/N + (1-d)/N`; otherwise each linked page gets
`round4((1-d)/N) + round4(d/L)` and every other corpus page gets
`round4((1-d)/N)`, inserted in the same order as the Python loops. -/
def transition_model (c : Corpus) (page : String) (d : ℚ) :
    Option (List (String × ℚ)) :=
  if page ∈ c.keys then
    if (c.links page).length = 0 then
      some (c.keys.map
        (fun q => (q, d / (c.keys.length : ℚ) + (1 - d) / (c.keys.length : ℚ))))
    else
      some ((c.links page).map
          (fun l => (l, round4 ((1 - d) / (c.keys.length : ℚ)) +
            round4 (d / ((c.links page).length : ℚ)))) ++
        (c.keys.filter (fun q => !((c.links page).contains q))).map
          (fun q => (q, round4 ((1 - d) / (c.keys.length : ℚ)))))
  else none

/-- Sum of the values of a probability / rank table. -/
def sumVals (tbl : List (String × ℚ)) : ℚ := (tbl.map Prod.snd).sum

/-- Embedding of `cross_link_corpus`: the pages `k` of the corpus (in key
order) whose link set contains `p`. -/
def backlinks (c : Corpus) (p : String) : List String :=
  c.keys.filter (fun k => (c.links k).contains p)

/-- One update of `iterate_pagerank`'s formula for a page with backlinks:
`(1-d)/N + d * Σ over q in backlinks(p) of rank(q)/len(corpus[q])`. -/
def passUpdate (c : Corpus) (d : ℚ) (r : String → ℚ) (p : String) : ℚ :=
  (1 - d) / (c.keys.length : ℚ) +
    d * ((backlinks c p).map (fun q => r q / ((c.links q).length : ℚ))).sum

/-- One full pass of `iterate_pagerank`'s `while` body over the given list
of pages.  A page whose backlink list is empty hits the `continue`
branch: its computed sum is discarded and its rank is left unchanged.
The second component models the Python locals `old_rank` / `page_rank`:
the (old, new) pair of the last page that was actually updated, or
`none` when no page was (in which case the convergence check raises
`UnboundLocalError`). -/
def processPass (c : Corpus) (d : ℚ) (r : String → ℚ) :
    List String → ((String → ℚ) × Option (ℚ × ℚ))
  | [] => (r, none)
  | p :: ks =>
    if (backlinks c p).isEmpty then processPass c d r ks
    else
      let newR := passUpdate c d r p
      let old := r p
      let res := processPass c d (Function.update r p newR) ks
      (res.1, some (res.2.getD (old, newR)))

/-- Outcome of running a piece of Python code: normal return, uncaught
runtime error, or (for the fuel-indexed model of `while True`) fuel ran
out before the loop decided anything. -/
inductive PyResult (α : Type) where
  | ok : α → PyResult α
  | err : PyResult α
  | timeout : PyResult α
deriving DecidableEq

/-- The initial rank table of `iterate_pagerank`: every page starts at
`1/N`. -/
def initRanks (c : Corpus) : String → ℚ := fun _ => 1 / (c.keys.length : ℚ)

/-- The `while True` loop of `iterate_pagerank`, fuel-indexed.  After each
pass the code breaks when `abs(old_rank - page_rank) < 0.0001`; if no
page was ever updated those locals are unbound and the check raises. -/
def iterLoop (c : Corpus) (d : ℚ) : Nat → (String → ℚ) → PyResult (String → ℚ)
  | 0, _ => .timeout
  | fuel + 1, r =>
    let res := processPass c d r c.keys
    match res.2 with
    | none => .err
    | some (o, nw) =>
      if |o - nw| < 1 / 10000 then .ok res.1 else iterLoop c d fuel res.1

/-- Embedding of `iterate_pagerank(corpus, damping_factor)`, returning the
final rank dictionary as an association list in key order. -/
def iterate_pagerank (c : Corpus) (d : ℚ) (fuel : Nat) :
    PyResult (List (String × ℚ)) :=
  match iterLoop c d fuel (initRanks c) with
  | .ok r => .ok (c.keys.map (fun p => (p, r p)))
  | .err => .err
  | .timeout => .timeout

/-- The last element of a list, as the Python locals would record it
(later assignments win). -/
def lastSome : List String → Option String
  | [] => none
  | a :: ks =>
    match lastSome ks with
    | some p => some p
    | none => some a

/-- The last corpus page (in key order) having at least one backlink:
the page whose rank delta the convergence check actually inspects. -/
def lastLinked (c : Corpus) : Option String :=
  lastSome (c.keys.filter (fun q => !(backlinks c q).isEmpty))

/-- The code's break decision after the first pass from the initial
ranks: `true` iff the tracked `abs(old_rank - page_rank)` is below
`0.0001` (and `false` also covers the unbound-locals crash). -/
def stopsAfterOnePass (c : Corpus) (d : ℚ) : Bool :=
  match (processPass c d (initRanks c) c.keys).2 with
  | some (o, nw) => |o - nw| < 1 / 10000
  | none => false

/-- Modelled from the spec: the effective outbound-link set used by the
specified update formula, under which a page with zero outbound links is
treated as linking to all `N` pages including itself. -/
def effectiveLinks (c : Corpus) (q : String) : List String :=
  if c.links q = [] then c.keys else c.links q

/-- Modelled from the spec: the intended per-page update
`rank(p) = (1-d)/N + d * Σ over pages q that link to p of
rank(q)/card(outlinks(q))`, with a linkless page treated as linking to
every page.  This is the formula the claims compare the code against. -/
def specIterateUpdate (c : Corpus) (d : ℚ) (r : String → ℚ) (p : String) : ℚ :=
  (1 - d) / (c.keys.length : ℚ) +
    d * ((c.keys.filter (fun q => (effectiveLinks c q).contains p)).map
      (fun q => r q / ((effectiveLinks c q).length : ℚ))).sum

/-- Embedding of the sampling loop of `sample_pagerank`: perform `n`
draws starting from step index `i` at page `cur`, recording each visited
page.  `random.choices(population, weights)` is modelled as picking
`population[stream i % len(population)]`; an empty population (or a
`KeyError` from the transition model) yields `none`. -/
def sampleSteps (c : Corpus) (d : ℚ) (stream : Nat → Nat) :
    Nat → Nat → String → Option (List String)
  | _, 0, _ => some []
  | i, n + 1, cur =>
    match transition_model c cur d with
    | none => none
    | some dist =>
      match dist.map Prod.fst with
      | [] => none
      | a :: tail =>
        let next := (a :: tail).getD (stream i % (a :: tail).length) a
        match sampleSteps c d stream (i + 1) n next with
        | none => none
        | some rest => some (next :: rest)

/-- Embedding of `sample_pagerank(corpus, damping_factor, n)`.  The
uniformly random start page `random.choice(list(corpus.keys()))` is
modelled by the injected index `start`; the table maps every corpus page
to its visit count divided by `n`. -/
def sample_pagerank (c : Corpus) (d : ℚ) (n : Nat) (stream : Nat → Nat)
    (start : Nat) : Option (List (String × ℚ)) :=
  if c.keys.length = 0 then none
  else
    let cur := c.keys.getD (start % c.keys.length) ""
    match sampleSteps c d stream 0 n cur with
    | none => none
    | some samples =>
      some (c.keys.map (fun p => (p, (samples.count p : ℚ) / (n : ℚ))))

/-! ### Concrete corpora used as inputs -/

/-- The single-page corpus of the spec's example: `corpus = a single page
with no outbound links`. -/
def corpusSingle : Corpus := ⟨["A.html"], fun _ => []⟩

/-- The spec's two-page example corpus: `A.html` has no outbound links,
`B.html` links to `A.html`. -/
def corpusAB : Corpus :=
  ⟨["A.html", "B.html"], fun p => if p = "B.html" then ["A.html"] else []⟩

/-- Two pages: `A.html` links to `B.html`, `B.html` has no outbound
links.  `A.html` has no backlinks and `B.html` is linkless. -/
def corpusNoBack : Corpus :=
  ⟨["A.html", "B.html"], fun p => if p = "A.html" then ["B.html"] else []⟩

/-- Three pages: `B.html` and `C.html` both link to `A.html`; `A.html`
has no outbound links.  Only `A.html` has backlinks, and the last page
in key order (`C.html`) has none. -/
def corpusLastSkip : Corpus :=
  ⟨["A.html", "B.html", "C.html"],
    fun p => if p = "A.html" then [] else ["A.html"]⟩

/-- Three pages with `A.html` linking to `B.html` only: exercises the
rounding of the base probability `(1-d)/3`. -/
def corpusThree : Corpus :=
  ⟨["A.html", "B.html", "C.html"],
    fun p => if p = "A.html" then ["B.html"] else []⟩

/-- Seven pages with `p1.html` linking to `p2.html` only: the rounding
error of `(1-d)/7` accumulated over seven entries exceeds `1e-4`. -/
def corpusSeven : Corpus :=
  ⟨["p1.html", "p2.html", "p3.html", "p4.html", "p5.html", "p6.html",
    "p7.html"],
    fun p => if p = "p1.html" then ["p2.html"] else []⟩

end PageRank

namespace PageRank

theorem iterLoop_single_err (d : ℚ) (fuel : Nat) (r : String → ℚ) :
    iterLoop corpusSingle d (fuel + 1) r = PyResult.err := by
  have h : processPass corpusSingle d r corpusSingle.keys = (r, none) := rfl
  simp [iterLoop, h]

theorem sample_pagerank_eq (c : Corpus) (d : ℚ) (n : Nat) (stream : Nat → Nat)
    (start : Nat) (h0 : ¬ c.keys.length = 0) (samples : List String)
    (hs : sampleSteps c d stream 0 n (c.keys.getD (start % c.keys.length) "")
      = some samples) :
    sample_pagerank c d n stream start =
      some (c.keys.map (fun p => (p, (samples.count p : ℚ) / (n : ℚ)))) := by
  unfold sample_pagerank
  rw [if_neg h0]
  simp only [hs]

/-- Claim C1 (code_bug evidence): on the corpus where A.html links to
B.html and B.html is linkless, a full pass of iterate leaves A.html at
its initial rank 1/2 — its backlink list is empty, so the continue
branch discards the computed sum and never assigns the new rank — while
the update formula the claim states (with the linkless page B.html
distributing its mass over all N pages) gives 23/80.  Linkless pages
appear in no backlink list, so they contribute to no page at all. -/
theorem iterate_pass_contradicts_spec_formula :
    (processPass corpusNoBack (17/20) (initRanks corpusNoBack)
        corpusNoBack.keys).1 "A.html" = 1/2 ∧
    specIterateUpdate corpusNoBack (17/20) (initRanks corpusNoBack) "A.html"
        = 23/80 ∧
    ((1 : ℚ)/2 ≠ 23/80) := by
  have hbA : backlinks corpusNoBack "A.html" = [] := by decide
  have hbB : backlinks corpusNoBack "B.html" = ["A.html"] := by decide
  have hkeys : corpusNoBack.keys = ["A.html", "B.html"] := rfl
  have hpass : processPass corpusNoBack (17/20) (initRanks corpusNoBack)
      corpusNoBack.keys =
      (Function.update (initRanks corpusNoBack) "B.html"
          (passUpdate corpusNoBack (17/20) (initRanks corpusNoBack) "B.html"),
        some (initRanks corpusNoBack "B.html",
          passUpdate corpusNoBack (17/20) (initRanks corpusNoBack) "B.html")) := by
    rw [hkeys]
    simp [processPass, hbA, hbB]
  have hne : ("A.html" : String) ≠ "B.html" := by decide
  have hfil : corpusNoBack.keys.filter
      (fun q => (effectiveLinks corpusNoBack q).contains "A.html")
      = ["B.html"] := by decide
  have heB : effectiveLinks corpusNoBack "B.html" = ["A.html", "B.html"] := by
    decide
  have hN : corpusNoBack.keys.length = 2 := rfl
  refine ⟨?_, ?_, by norm_num⟩
  · simp only [hpass, Function.update_noteq hne]
    norm_num [initRanks, hN]
  · rw [specIterateUpdate, hfil]
    simp only [List.map_cons, List.map_nil, heB, List.sum_cons, List.sum_nil,
      initRanks, hN]
    norm_num

/-- Claim C4 (counterexample): on the three-page corpus where only
A.html has backlinks, after the first full pass the last page
processed (C.html) changed by 0, which is below 0.0001, yet the loop
does not stop: the code's check inspects the last updated page
(A.html, which moved from 1/3 to 37/60), so with fuel for exactly one
pass the loop runs out of fuel instead of returning. -/
theorem stop_check_ignores_last_processed_page :
    (processPass corpusLastSkip (17/20) (initRanks corpusLastSkip)
        corpusLastSkip.keys).1 "C.html" = initRanks corpusLastSkip "C.html" ∧
    |(processPass corpusLastSkip (17/20) (initRanks corpusLastSkip)
        corpusLastSkip.keys).1 "C.html" - initRanks corpusLastSkip "C.html"|
      < 1/10000 ∧
    stopsAfterOnePass corpusLastSkip (17/20) = false ∧
    iterate_pagerank corpusLastSkip (17/20) 1 = PyResult.timeout := by
  have hbA : backlinks corpusLastSkip "A.html" = ["B.html", "C.html"] := by
    decide
  have hbB : backlinks corpusLastSkip "B.html" = [] := by decide
  have hbC : backlinks corpusLastSkip "C.html" = [] := by decide
  have hkeys : corpusLastSkip.keys = ["A.html", "B.html", "C.html"] := rfl
  have hpass : processPass corpusLastSkip (17/20) (initRanks corpusLastSkip)
      corpusLastSkip.keys =
      (Function.update (initRanks corpusLastSkip) "A.html"
          (passUpdate corpusLastSkip (17/20) (initRanks corpusLastSkip) "A.html"),
        some (initRanks corpusLastSkip "A.html",
          passUpdate corpusLastSkip (17/20) (initRanks corpusLastSkip) "A.html")) := by
    rw [hkeys]
    simp [processPass, hbA, hbB, hbC]
  have hlB : (corpusLastSkip.links "B.html").length = 1 := rfl
  have hlC : (corpusLastSkip.links "C.html").length = 1 := rfl
  have hN : corpusLastSkip.keys.length = 3 := rfl
  have huA : passUpdate corpusLastSkip (17/20) (initRanks corpusLastSkip)
      "A.html" = 37/60 := by
    simp only [passUpdate, hbA, initRanks, List.map_cons, List.map_nil,
      List.sum_cons, List.sum_nil, hlB, hlC, hN]
    norm_num
  have hne : ("C.html" : String) ≠ "A.html" := by decide
  have hC : (processPass corpusLastSkip (17/20) (initRanks corpusLastSkip)
      corpusLastSkip.keys).1 "C.html" = initRanks corpusLastSkip "C.html" := by
    simp only [hpass, Function.update_noteq hne]
  have hr0 : initRanks corpusLastSkip "A.html" = 1/3 := by
    norm_num [initRanks, hN]
  have hlt : ¬ (|initRanks corpusLastSkip "A.html" -
      passUpdate corpusLastSkip (17/20) (initRanks corpusLastSkip) "A.html"|
        < 1/10000) := by
    rw [hr0, huA, abs_sub_lt_iff]
    norm_num
  refine ⟨hC, ?_, ?_, ?_⟩
  · rw [hC]
    norm_num
  · rw [stopsAfterOnePass, hpass]
    exact decide_eq_false hlt
  · rw [iterate_pagerank]
    have hloop : iterLoop corpusLastSkip (17/20) 1 (initRanks corpusLastSkip)
        = PyResult.timeout := by
      rw [iterLoop]
      simp only [hpass]
      rw [if_neg hlt]
      rfl
    rw [hloop]

/-- Claim C5 (counterexample): on a seven-page corpus where p1.html
has one outbound link, with damping 0.85, the transition
distribution's values sum to 4999/5000 = 0.9998, which is not within
1e-4 of 1: the per-entry rounding to four decimal places accumulates
across the seven entries. -/
theorem transition_sum_misses_tolerance :
    (transition_model corpusSeven "p1.html" (17/20)).map sumVals
      = some (4999/5000) ∧
    ¬ (|(4999 : ℚ)/5000 - 1| ≤ 1/10000) := by
  have hmem : "p1.html" ∈ corpusSeven.keys := by decide
  have hlinks : corpusSeven.links "p1.html" = ["p2.html"] := by decide
  have hfil : corpusSeven.keys.filter
      (fun q => !((corpusSeven.links "p1.html").contains q))
      = ["p1.html", "p3.html", "p4.html", "p5.html", "p6.html", "p7.html"] := by
    decide
  have hN : corpusSeven.keys.length = 7 := rfl
  constructor
  · rw [transition_model, if_pos hmem]
    rw [hfil, hlinks, hN]
    norm_num [sumVals, round4, round_eq]
  · have habs : |(4999 : ℚ)/5000 - 1| = 1/5000 := by
      rw [abs_sub_comm, abs_of_pos (by norm_num : (0:ℚ) < 1 - 4999/5000)]
      norm_num
    rw [habs]
    norm_num

/-- Claim C6 (counterexample): on a three-page corpus with damping
1/2, the page C.html (not linked from A.html) receives
round4(1/6) = 1667/10000, not the exact base probability
(1 - d)/N = 1/6. -/
theorem transition_base_probability_rounded :
    (transition_model corpusThree "A.html" (1/2)).bind
        (fun t => t.lookup "C.html") = some (1667/10000) ∧
    (1667 : ℚ)/10000 ≠ (1 - 1/2) / 3 := by
  have hmem : "A.html" ∈ corpusThree.keys := by decide
  have hlinks : corpusThree.links "A.html" = ["B.html"] := by decide
  have hfil : corpusThree.keys.filter
      (fun q => !((corpusThree.links "A.html").contains q))
      = ["A.html", "C.html"] := by decide
  have hN : corpusThree.keys.length = 3 := rfl
  constructor
  · rw [transition_model, if_pos hmem]
    rw [hfil, hlinks, hN]
    norm_num [List.lookup, round4, round_eq,
      show ("C.html" == "B.html") = false from by decide,
      show ("C.html" == "A.html") = false from by decide,
      show ("C.html" == "C.html") = true from by decide]
  · norm_num

/-- Claim C7: if the page is in the corpus and has no outbound links,
transition_model returns the uniform distribution, assigning exactly
1/N to every corpus page, for every damping factor. -/
theorem transition_no_outlinks_uniform (c : Corpus) (p : String) (d : ℚ)
    (hp : p ∈ c.keys) (hl : c.links p = []) :
    transition_model c p d =
      some (c.keys.map (fun q => (q, 1 / (c.keys.length : ℚ)))) := by
  have hf : (fun q : String =>
        (q, d / (c.keys.length : ℚ) + (1 - d) / (c.keys.length : ℚ))) =
      (fun q : String => (q, 1 / (c.keys.length : ℚ))) := by
    funext q
    rw [div_add_div_same]
    norm_num
  simp only [transition_model, hp, if_true, hl, List.length_nil, hf]

/-- Witness for C7 at the spec's example: the corpus where A.html is
linkless and B.html links to it; the result is the uniform
distribution assigning 1/2 to each page. -/
theorem transition_no_outlinks_uniform_witness :
    transition_model corpusAB "A.html" (17/20) =
      some (corpusAB.keys.map (fun q => (q, 1 / (corpusAB.keys.length : ℚ))))
    ∧ corpusAB.keys.map (fun q => (q, 1 / (corpusAB.keys.length : ℚ)))
      = [("A.html", 1/2), ("B.html", 1/2)] :=
  ⟨transition_no_outlinks_uniform corpusAB "A.html" (17/20) (by decide) (by decide),
    by norm_num [corpusAB]⟩

/-- Claim C8 (counterexample): with damping factor 2 — outside (0,1) —
and a page that is in the corpus, transition_model succeeds: the code
never validates the damping factor, so the claimed InvalidParameter
failure does not exist. -/
theorem transition_accepts_invalid_damping :
    (transition_model corpusThree "A.html" (2 : ℚ)).isSome = true ∧
    ¬ ((0 : ℚ) < 2 ∧ (2 : ℚ) < 1) := by
  constructor
  · rw [transition_model, if_pos (by decide : "A.html" ∈ corpusThree.keys)]
    have h : ¬ ((corpusThree.links "A.html").length = 0) := by decide
    rw [if_neg h]
    rfl
  · norm_num

/-- Claim C8 (amended): transition_model fails exactly when the page
is not a key of the corpus (the KeyError from the corpus[page] lookup,
which also covers every empty corpus); on every other input —
regardless of the damping factor — it succeeds. -/
theorem transition_fails_iff_page_missing (c : Corpus) (page : String) (d : ℚ) :
    transition_model c page d = none ↔ page ∉ c.keys := by
  rw [transition_model]
  by_cases h : page ∈ c.keys
  · rw [if_pos h]
    simp only [h, not_true_eq_false, iff_false]
    split <;> simp
  · rw [if_neg h]
    simp [h]

end PageRank

namespace PageRank

theorem sum_map_const {α : Type} (l : List α) (v : ℚ) :
    (l.map (fun _ => v)).sum = (l.length : ℚ) * v := by
  induction l with
  | nil => simp
  | cons a l ih => simp [ih]; ring

theorem sum_map_add {α : Type} (l : List α) (f g : α → ℕ) :
    (l.map (fun x => f x + g x)).sum = (l.map f).sum + (l.map g).sum := by
  induction l with
  | nil => rfl
  | cons a l ih => simp [ih]; omega

theorem sum_map_div {α : Type} (l : List α) (f : α → ℚ) (v : ℚ) :
    (l.map (fun x => f x / v)).sum = (l.map f).sum / v := by
  induction l with
  | nil => simp
  | cons a l ih => simp [ih, add_div]

theorem sum_map_cast {α : Type} (l : List α) (f : α → ℕ) :
    (l.map (fun x => (f x : ℚ))).sum = (((l.map f).sum : ℕ) : ℚ) := by
  induction l with
  | nil => simp
  | cons a l ih => simp [ih]

theorem length_filter_add {α : Type} (l : List α) (p : α → Bool) :
    (l.filter p).length + (l.filter (fun a => !(p a))).length = l.length := by
  induction l with
  | nil => rfl
  | cons a l ih =>
    cases h : p a <;> simp [List.filter_cons, h] <;> omega

theorem length_filter_contains (keys lnks : List String)
    (hk : keys.Nodup) (hl : lnks.Nodup) (hsub : ∀ q ∈ lnks, q ∈ keys) :
    (keys.filter (fun q => lnks.contains q)).length = lnks.length := by
  have hperm : List.Perm (keys.filter (fun q => lnks.contains q)) lnks := by
    rw [List.perm_iff_count]
    intro x
    by_cases hx : x ∈ lnks
    · rw [List.count_filter (by simpa using hx)]
      rw [List.count_eq_one_of_mem hk (hsub x hx),
        List.count_eq_one_of_mem hl hx]
    · rw [List.count_eq_zero.mpr hx, List.count_eq_zero]
      intro hmem
      exact hx (by simpa using (List.mem_filter.mp hmem).2)
  exact hperm.length_eq

theorem round4_close (q : ℚ) : |round4 q - q| ≤ 1/20000 := by
  have h := abs_sub_round (q * 10000)
  have he : round4 q - q = (((round (q * 10000) : ℤ) : ℚ) - q * 10000) / 10000 := by
    rw [round4]; ring
  rw [he, abs_div, abs_of_pos (by norm_num : (0:ℚ) < 10000), abs_sub_comm]
  rw [div_le_iff₀ (by norm_num : (0:ℚ) < 10000)]
  calc |q * 10000 - ((round (q * 10000) : ℤ) : ℚ)| ≤ 1/2 := h
    _ ≤ 1/20000 * 10000 := by norm_num

theorem lastSome_eq_none (l : List String) : lastSome l = none ↔ l = [] := by
  cases l with
  | nil => simp [lastSome]
  | cons a ks =>
    simp only [lastSome]
    cases h : lastSome ks <;> simp

theorem lastSome_mem {l : List String} {p : String} (h : lastSome l = some p) :
    p ∈ l := by
  induction l with
  | nil => cases h
  | cons a ks ih =>
    rw [lastSome] at h
    cases hl : lastSome ks with
    | some q =>
      rw [hl] at h
      cases h
      exact List.mem_cons_of_mem _ (ih hl)
    | none =>
      rw [hl] at h
      cases h
      exact List.mem_cons_self _ _

theorem processPass_skip_all (c : Corpus) (d : ℚ) (ks : List String)
    (r : String → ℚ) (h : ∀ q ∈ ks, (backlinks c q).isEmpty = true) :
    processPass c d r ks = (r, none) := by
  induction ks generalizing r with
  | nil => rfl
  | cons a ks ih =>
    rw [processPass, if_pos (h a (List.mem_cons_self _ _))]
    exact ih r (fun q hq => h q (List.mem_cons_of_mem _ hq))

theorem processPass_untouched (c : Corpus) (d : ℚ) (ks : List String)
    (r : String → ℚ) (q : String)
    (h : (backlinks c q).isEmpty = true ∨ q ∉ ks) :
    (processPass c d r ks).1 q = r q := by
  induction ks generalizing r with
  | nil => rfl
  | cons a ks ih =>
    have htail : (backlinks c q).isEmpty = true ∨ q ∉ ks :=
      h.imp_right (fun hn hq => hn (List.mem_cons_of_mem _ hq))
    rw [processPass]
    by_cases ha : (backlinks c a).isEmpty = true
    · rw [if_pos ha]
      exact ih r htail
    · rw [if_neg ha]
      have hqa : q ≠ a := by
        rcases h with h1 | h2
        · intro e; rw [e] at h1; exact ha h1
        · intro e; rw [e] at h2; exact h2 (List.mem_cons_self _ _)
      show (processPass c d (Function.update r a (passUpdate c d r a)) ks).1 q
        = r q
      rw [ih (Function.update r a (passUpdate c d r a)) htail]
      exact Function.update_noteq hqa _ _

theorem processPass_tracker (c : Corpus) (d : ℚ) (ks : List String)
    (r : String → ℚ) (p : String) (hnd : ks.Nodup)
    (hl : lastSome (ks.filter (fun q => !(backlinks c q).isEmpty)) = some p) :
    (processPass c d r ks).2 = some (r p, (processPass c d r ks).1 p) := by
  induction ks generalizing r with
  | nil => cases hl
  | cons a ks ih =>
    have hna : a ∉ ks := (List.nodup_cons.mp hnd).1
    have hnd' : ks.Nodup := (List.nodup_cons.mp hnd).2
    by_cases ha : (backlinks c a).isEmpty = true
    · have hfa : (!(backlinks c a).isEmpty) = false := by simp [ha]
      rw [List.filter_cons, hfa] at hl
      simp only [Bool.false_eq_true, if_false] at hl
      rw [processPass, if_pos ha]
      exact ih r hnd' hl
    · have hfa : (!(backlinks c a).isEmpty) = true := by simpa using ha
      rw [List.filter_cons, hfa] at hl
      rw [if_pos rfl] at hl
      rw [lastSome] at hl
      rw [processPass, if_neg ha]
      cases hrest : lastSome (ks.filter (fun q => !(backlinks c q).isEmpty)) with
      | none =>
        rw [hrest] at hl
        cases hl
        have hall : ∀ q ∈ ks, (backlinks c q).isEmpty = true := by
          intro q hq
          by_contra hne
          have hmem : q ∈ ks.filter (fun x => !(backlinks c x).isEmpty) :=
            List.mem_filter.mpr ⟨hq, by simpa using hne⟩
          have hnil := (lastSome_eq_none
            (ks.filter (fun x => !(backlinks c x).isEmpty))).mp hrest
          rw [hnil] at hmem
          cases hmem
        have hskip := processPass_skip_all c d ks
          (Function.update r p (passUpdate c d r p)) hall
        show ((processPass c d (Function.update r p (passUpdate c d r p)) ks).1,
            some ((processPass c d (Function.update r p (passUpdate c d r p))
              ks).2.getD (r p, passUpdate c d r p))).2
          = some (r p,
            ((processPass c d (Function.update r p (passUpdate c d r p)) ks).1,
              some ((processPass c d (Function.update r p (passUpdate c d r p))
                ks).2.getD (r p, passUpdate c d r p))).1 p)
        rw [hskip]
        simp [Function.update_same]
      | some q =>
        rw [hrest] at hl
        cases hl
        have hpk : p ∈ ks := List.mem_filter.mp (lastSome_mem hrest) |>.1
        have hpa : p ≠ a := fun e => hna (e ▸ hpk)
        have hup : Function.update r a (passUpdate c d r a) p = r p :=
          Function.update_noteq hpa _ _
        have hrec := ih (Function.update r a (passUpdate c d r a)) hnd' hrest
        show ((processPass c d (Function.update r a (passUpdate c d r a)) ks).1,
            some ((processPass c d (Function.update r a (passUpdate c d r a))
              ks).2.getD (r a, passUpdate c d r a))).2
          = some (r p,
            ((processPass c d (Function.update r a (passUpdate c d r a)) ks).1,
              some ((processPass c d (Function.update r a (passUpdate c d r a))
                ks).2.getD (r a, passUpdate c d r a))).1 p)
        rw [hrec, hup]
        rfl

/-- Claim C10: every page q in the backlink table entry of any page p
has at least one outbound link — p itself is in corpus[q] — so the
divisor len(corpus[q]) in iterate's update sum is never zero. -/
theorem backlinks_have_outlinks (c : Corpus) (p q : String)
    (h : q ∈ backlinks c p) : 0 < (c.links q).length := by
  have hm : p ∈ c.links q := by
    have h2 := (List.mem_filter.mp h).2
    simpa using h2
  exact List.length_pos.mpr (List.ne_nil_of_mem hm)

/-- Witness for C10 at a concrete corpus: B.html backlinks A.html and
indeed has an outbound link. -/
theorem backlinks_have_outlinks_witness :
    "B.html" ∈ backlinks corpusLastSkip "A.html" ∧
    0 < (corpusLastSkip.links "B.html").length :=
  ⟨by decide, backlinks_have_outlinks corpusLastSkip "A.html" "B.html" (by decide)⟩

end PageRank

namespace PageRank

/-- Claim C2 (code_bug evidence): on the non-empty single-page corpus,
for every damping factor and every amount of fuel, iterate raises
(UnboundLocalError: old_rank and page_rank are never assigned because
the only page has no backlinks) instead of terminating with a rank
table summing to 1. -/
theorem iterate_crashes_on_single_page (d : ℚ) (fuel : Nat) :
    iterate_pagerank corpusSingle d (fuel + 1) = PyResult.err := by
  rw [iterate_pagerank, iterLoop_single_err]

/-- Claim C3 (code_bug evidence): on the spec's single-page example
corpus with damping 0.85, the sampling estimator does return the rank
table mapping A.html to 1 for every sample count n at least 1 and
every random stream, but the iterative estimator raises instead of
returning that table. -/
theorem single_page_sample_ok_iterate_crashes :
    (∀ (n : Nat) (stream : Nat → Nat) (start : Nat),
      sample_pagerank corpusSingle (17/20) (n + 1) stream start =
        some [("A.html", 1)]) ∧
    (∀ fuel : Nat,
      iterate_pagerank corpusSingle (17/20) (fuel + 1) = PyResult.err) := by
  constructor
  · intro n stream start
    have hsteps : ∀ (m i : Nat),
        sampleSteps corpusSingle (17/20) stream i m "A.html" =
          some (List.replicate m "A.html") := by
      intro m
      induction m with
      | zero => intro i; rfl
      | succ m ih =>
        intro i
        have ht : transition_model corpusSingle "A.html" (17/20) =
            some [("A.html",
              (17/20) / ((1 : Nat) : ℚ) + (1 - 17/20) / ((1 : Nat) : ℚ))] := rfl
        simp [sampleSteps, ht, ih (i + 1), Nat.mod_one, List.replicate_succ]
    have hget : corpusSingle.keys.getD (start % corpusSingle.keys.length) ""
        = "A.html" := by
      have h1 : corpusSingle.keys.length = 1 := rfl
      rw [h1, Nat.mod_one]
      rfl
    rw [sample_pagerank_eq corpusSingle (17/20) (n + 1) stream start
      (by decide) (List.replicate (n + 1) "A.html")
      (by rw [hget]; exact hsteps (n + 1) 0)]
    have hn : ((n + 1 : Nat) : ℚ) ≠ 0 := Nat.cast_ne_zero.mpr (Nat.succ_ne_zero n)
    have hkeys : corpusSingle.keys = ["A.html"] := rfl
    rw [hkeys]
    simp only [List.map_cons, List.map_nil, List.count_replicate_self]
    rw [div_self hn]
  · intro fuel
    rw [iterate_pagerank, iterLoop_single_err]

/-- Claim C4 (amended): after a full pass, the (old, new) pair the
convergence check compares against 0.0001 belongs to the last page in
corpus order whose backlink list is non-empty — the last page updated
in the pass — and its old value is the page's rank at the start of the
pass; if no page has a backlink, the pass updates nothing and the
tracked pair does not exist, so the check reads unbound locals; and the
rank of any page with no backlinks is never changed by a pass. -/
theorem stop_check_tracks_last_updated_page (c : Corpus) (d : ℚ) (hnd : c.keys.Nodup) :
    (∀ p, lastLinked c = some p → ∀ r,
      (processPass c d r c.keys).2
        = some (r p, (processPass c d r c.keys).1 p)) ∧
    (lastLinked c = none → ∀ r, processPass c d r c.keys = (r, none)) ∧
    (∀ r q, (backlinks c q).isEmpty = true →
      (processPass c d r c.keys).1 q = r q) := by
  refine ⟨?_, ?_, ?_⟩
  · intro p hp r
    exact processPass_tracker c d c.keys r p hnd hp
  · intro h r
    apply processPass_skip_all
    intro q hq
    by_contra hne
    have hmem : q ∈ c.keys.filter (fun x => !(backlinks c x).isEmpty) :=
      List.mem_filter.mpr ⟨hq, by simpa using hne⟩
    rw [lastLinked] at h
    have hnil := (lastSome_eq_none
      (c.keys.filter (fun x => !(backlinks c x).isEmpty))).mp h
    rw [hnil] at hmem
    cases hmem
  · intro r q hq
    exact processPass_untouched c d c.keys r q (Or.inl hq)

/-- Witness for the amended C4 at a concrete corpus: the tracked pair
after the first pass is the old and new rank of A.html, the only page
with backlinks. -/
theorem stop_check_tracks_last_updated_page_witness :
    corpusLastSkip.keys.Nodup ∧
    lastLinked corpusLastSkip = some "A.html" ∧
    (processPass corpusLastSkip (17/20) (initRanks corpusLastSkip)
        corpusLastSkip.keys).2
      = some (initRanks corpusLastSkip "A.html",
        (processPass corpusLastSkip (17/20) (initRanks corpusLastSkip)
          corpusLastSkip.keys).1 "A.html") :=
  ⟨by decide, by decide,
    (stop_check_tracks_last_updated_page corpusLastSkip (17/20) (by decide)).1 "A.html" (by decide)
      (initRanks corpusLastSkip)⟩

end PageRank

namespace PageRank

theorem lookup_append_some {q : String} {v : ℚ} {xs ys : List (String × ℚ)}
    (h : xs.lookup q = some v) : (xs ++ ys).lookup q = some v := by
  induction xs with
  | nil => cases h
  | cons a xs ih =>
    obtain ⟨k, w⟩ := a
    by_cases hqk : q = k
    · subst hqk
      simp [List.lookup] at h ⊢
      exact h
    · have hb : (q == k) = false := by simpa using hqk
      simp only [List.cons_append, List.lookup, hb] at h ⊢
      exact ih h

theorem lookup_append_none {q : String} {xs ys : List (String × ℚ)}
    (h : xs.lookup q = none) : (xs ++ ys).lookup q = ys.lookup q := by
  induction xs with
  | nil => rfl
  | cons a xs ih =>
    obtain ⟨k, w⟩ := a
    by_cases hqk : q = k
    · subst hqk
      simp [List.lookup] at h
    · have hb : (q == k) = false := by simpa using hqk
      simp only [List.cons_append, List.lookup, hb] at h ⊢
      exact ih h

theorem lookup_map_const_mem (v : ℚ) (l : List String) (q : String)
    (h : q ∈ l) : (l.map (fun x => (x, v))).lookup q = some v := by
  induction l with
  | nil => cases h
  | cons a l ih =>
    by_cases hqa : q = a
    · subst hqa
      simp [List.lookup]
    · have hb : (q == a) = false := by simpa using hqa
      have h2 : q ∈ l := by
        rcases List.mem_cons.mp h with h3 | h3
        · exact absurd h3 hqa
        · exact h3
      simp only [List.map_cons, List.lookup, hb]
      exact ih h2

theorem lookup_map_const_not_mem (v : ℚ) (l : List String) (q : String)
    (h : q ∉ l) : (l.map (fun x => (x, v))).lookup q = none := by
  induction l with
  | nil => rfl
  | cons a l ih =>
    have hqa : q ≠ a := fun e => h (e ▸ List.mem_cons_self _ _)
    have hb : (q == a) = false := by simpa using hqa
    simp only [List.map_cons, List.lookup, hb]
    exact ih (fun hq => h (List.mem_cons_of_mem _ hq))

theorem map_fst_pair (l : List String) (f : String → ℚ) :
    (l.map (fun x => (x, f x))).map Prod.fst = l := by
  induction l with
  | nil => rfl
  | cons a t ih => simp [ih]

theorem map_snd_pair (l : List String) (f : String → ℚ) :
    (l.map (fun x => (x, f x))).map Prod.snd = l.map f := by
  induction l with
  | nil => rfl
  | cons a t ih => simp [ih]

/-- Claim C5 (amended): for a page with outbound links,
transition_model returns a table with exactly N entries in which every
corpus page appears as a key exactly once, and whose values sum to 1
within (N + number of outbound links) / 20000 — the probabilities are
rounded to four decimal places, each contributing up to 1/20000 of
error, so the claimed uniform 1e-4 bound holds only for tiny
corpora. -/
theorem transition_outlinked_table_shape (c : Corpus) (p : String) (d : ℚ)
    (hk : c.keys.Nodup) (hp : p ∈ c.keys) (hne : c.links p ≠ [])
    (hln : (c.links p).Nodup) (hsub : ∀ q ∈ c.links p, q ∈ c.keys)
    (hd0 : 0 < d) (hd1 : d < 1) :
    ∃ tbl, transition_model c p d = some tbl ∧
      tbl.length = c.keys.length ∧
      (tbl.map Prod.fst).Nodup ∧
      (∀ q, q ∈ tbl.map Prod.fst ↔ q ∈ c.keys) ∧
      |sumVals tbl - 1| ≤
        ((c.keys.length : ℚ) + ((c.links p).length : ℚ)) / 20000 := by
  have hL0 : ¬ ((c.links p).length = 0) :=
    fun h => hne (List.length_eq_zero.mp h)
  have htm : transition_model c p d = some ((c.links p).map
      (fun l => (l, round4 ((1 - d) / (c.keys.length : ℚ)) +
        round4 (d / ((c.links p).length : ℚ)))) ++
      (c.keys.filter (fun q => !((c.links p).contains q))).map
        (fun q => (q, round4 ((1 - d) / (c.keys.length : ℚ))))) := by
    rw [transition_model, if_pos hp, if_neg hL0]
  have hfst : (((c.links p).map
      (fun l => (l, round4 ((1 - d) / (c.keys.length : ℚ)) +
        round4 (d / ((c.links p).length : ℚ)))) ++
      (c.keys.filter (fun q => !((c.links p).contains q))).map
        (fun q => (q, round4 ((1 - d) / (c.keys.length : ℚ))))).map Prod.fst)
      = c.links p ++ c.keys.filter (fun q => !((c.links p).contains q)) := by
    rw [List.map_append, map_fst_pair, map_fst_pair]
  have h1 := length_filter_add c.keys (fun q => (c.links p).contains q)
  have h2 := length_filter_contains c.keys (c.links p) hk hln hsub
  have hflen : (c.keys.filter (fun q => !((c.links p).contains q))).length
      = c.keys.length - (c.links p).length := by omega
  have hle : (c.links p).length ≤ c.keys.length := by
    have h3 := List.length_filter_le (fun q => (c.links p).contains q) c.keys
    omega
  refine ⟨_, htm, ?_, ?_, ?_, ?_⟩
  · rw [List.length_append, List.length_map, List.length_map, hflen]
    omega
  · rw [hfst, List.nodup_append]
    refine ⟨hln, hk.filter _, ?_⟩
    intro a ha hafil
    have h4 := (List.mem_filter.mp hafil).2
    simp only [Bool.not_eq_true'] at h4
    exact absurd ha (by simpa using h4)
  · intro q
    rw [hfst, List.mem_append]
    constructor
    · rintro (h4 | h4)
      · exact hsub q h4
      · exact (List.mem_filter.mp h4).1
    · intro h4
      by_cases h5 : q ∈ c.links p
      · exact Or.inl h5
      · exact Or.inr (List.mem_filter.mpr ⟨h4, by simpa using h5⟩)
  · have hsnd : (((c.links p).map
        (fun l => (l, round4 ((1 - d) / (c.keys.length : ℚ)) +
          round4 (d / ((c.links p).length : ℚ)))) ++
        (c.keys.filter (fun q => !((c.links p).contains q))).map
          (fun q => (q, round4 ((1 - d) / (c.keys.length : ℚ))))).map Prod.snd)
        = (c.links p).map (fun _ => round4 ((1 - d) / (c.keys.length : ℚ)) +
            round4 (d / ((c.links p).length : ℚ))) ++
          (c.keys.filter (fun q => !((c.links p).contains q))).map
            (fun _ => round4 ((1 - d) / (c.keys.length : ℚ))) := by
      rw [List.map_append, map_snd_pair, map_snd_pair]
    rw [sumVals, hsnd, List.sum_append, sum_map_const, sum_map_const, hflen,
      Nat.cast_sub hle]
    have hN0 : ((c.keys.length : ℕ) : ℚ) ≠ 0 :=
      Nat.cast_ne_zero.mpr
        (fun h => (List.ne_nil_of_mem hp) (List.length_eq_zero.mp h))
    have hL0Q : (((c.links p).length : ℕ) : ℚ) ≠ 0 := Nat.cast_ne_zero.mpr hL0
    have hkey : ((c.links p).length : ℚ) *
          (round4 ((1 - d) / (c.keys.length : ℚ)) +
            round4 (d / ((c.links p).length : ℚ))) +
        ((c.keys.length : ℚ) - ((c.links p).length : ℚ)) *
          round4 ((1 - d) / (c.keys.length : ℚ)) - 1
        = (c.keys.length : ℚ) *
            (round4 ((1 - d) / (c.keys.length : ℚ)) -
              (1 - d) / (c.keys.length : ℚ)) +
          ((c.links p).length : ℚ) *
            (round4 (d / ((c.links p).length : ℚ)) -
              d / ((c.links p).length : ℚ)) := by
      field_simp
      ring
    rw [hkey]
    have hNpos : (0:ℚ) ≤ (c.keys.length : ℚ) := Nat.cast_nonneg _
    have hLpos : (0:ℚ) ≤ ((c.links p).length : ℚ) := Nat.cast_nonneg _
    calc |(c.keys.length : ℚ) *
          (round4 ((1 - d) / (c.keys.length : ℚ)) -
            (1 - d) / (c.keys.length : ℚ)) +
        ((c.links p).length : ℚ) *
          (round4 (d / ((c.links p).length : ℚ)) -
            d / ((c.links p).length : ℚ))|
        ≤ |(c.keys.length : ℚ) *
            (round4 ((1 - d) / (c.keys.length : ℚ)) -
              (1 - d) / (c.keys.length : ℚ))| +
          |((c.links p).length : ℚ) *
            (round4 (d / ((c.links p).length : ℚ)) -
              d / ((c.links p).length : ℚ))| := abs_add _ _
      _ = (c.keys.length : ℚ) *
            |round4 ((1 - d) / (c.keys.length : ℚ)) -
              (1 - d) / (c.keys.length : ℚ)| +
          ((c.links p).length : ℚ) *
            |round4 (d / ((c.links p).length : ℚ)) -
              d / ((c.links p).length : ℚ)| := by
            rw [abs_mul, abs_mul, abs_of_nonneg hNpos, abs_of_nonneg hLpos]
      _ ≤ (c.keys.length : ℚ) * (1/20000) +
          ((c.links p).length : ℚ) * (1/20000) := by
            exact add_le_add
              (mul_le_mul_of_nonneg_left (round4_close _) hNpos)
              (mul_le_mul_of_nonneg_left (round4_close _) hLpos)
      _ = ((c.keys.length : ℚ) + ((c.links p).length : ℚ)) / 20000 := by ring

/-- Witness for the amended C5 at a concrete three-page corpus with
damping 1/2. -/
theorem transition_outlinked_table_shape_witness :
    ∃ tbl, transition_model corpusThree "A.html" (1/2) = some tbl ∧
      tbl.length = corpusThree.keys.length ∧
      (tbl.map Prod.fst).Nodup ∧
      (∀ q, q ∈ tbl.map Prod.fst ↔ q ∈ corpusThree.keys) ∧
      |sumVals tbl - 1| ≤
        ((corpusThree.keys.length : ℚ) +
          ((corpusThree.links "A.html").length : ℚ)) / 20000 :=
  transition_outlinked_table_shape corpusThree "A.html" (1/2) (by decide) (by decide)
    (by decide) (by decide) (by decide) (by norm_num) (by norm_num)

/-- Claim C6 (amended): for a page p with outbound links and any
corpus page q, the transition value of q is the rounded base
probability round4((1-d)/N), plus additionally round4(d/L) when p
links to q (L the number of p's outbound links); pages not linked from
p receive exactly the rounded base, which is within 1/20000 of
(1-d)/N but not always equal to it. -/
theorem transition_entry_values (c : Corpus) (p : String) (d : ℚ) (q : String)
    (hp : p ∈ c.keys) (hne : c.links p ≠ []) (hq : q ∈ c.keys) :
    (transition_model c p d).bind (fun t => t.lookup q) =
      some (if (c.links p).contains q
        then round4 ((1 - d) / (c.keys.length : ℚ)) +
          round4 (d / ((c.links p).length : ℚ))
        else round4 ((1 - d) / (c.keys.length : ℚ))) := by
  have hL0 : ¬ ((c.links p).length = 0) :=
    fun h => hne (List.length_eq_zero.mp h)
  rw [transition_model, if_pos hp, if_neg hL0]
  show (((c.links p).map
      (fun l => (l, round4 ((1 - d) / (c.keys.length : ℚ)) +
        round4 (d / ((c.links p).length : ℚ)))) ++
      (c.keys.filter (fun x => !((c.links p).contains x))).map
        (fun x => (x, round4 ((1 - d) / (c.keys.length : ℚ))))).lookup q) = _
  by_cases hql : q ∈ c.links p
  · have hcon : (c.links p).contains q = true := by simpa using hql
    rw [lookup_append_some (lookup_map_const_mem _ _ _ hql), if_pos hcon]
  · have hcon : (c.links p).contains q = false := by simpa using hql
    have hqfil : q ∈ c.keys.filter (fun x => !((c.links p).contains x)) :=
      List.mem_filter.mpr ⟨hq, by simpa using hql⟩
    rw [lookup_append_none (lookup_map_const_not_mem _ _ _ hql),
      lookup_map_const_mem _ _ _ hqfil, if_neg (by simpa using hql)]

/-- Witness for the amended C6: the unlinked page C.html receives the
rounded base probability. -/
theorem transition_entry_values_witness :
    (transition_model corpusThree "A.html" (1/2)).bind
        (fun t => t.lookup "C.html") =
      some (if (corpusThree.links "A.html").contains "C.html"
        then round4 ((1 - 1/2) / (corpusThree.keys.length : ℚ)) +
          round4 ((1/2) / ((corpusThree.links "A.html").length : ℚ))
        else round4 ((1 - 1/2) / (corpusThree.keys.length : ℚ))) :=
  transition_entry_values corpusThree "A.html" (1/2) "C.html" (by decide) (by decide)
    (by decide)

end PageRank

namespace PageRank

theorem getD_cons_mem (a : String) (t : List String) (i : Nat) :
    (a :: t).getD i a ∈ a :: t := by
  rw [List.getD_eq_get?]
  cases hx : (a :: t).get? i with
  | none => exact List.mem_cons_self _ _
  | some x =>
    have := List.get?_mem hx
    simpa using this

theorem transition_keys_sub (c : Corpus) (hv : c.Valid) (cur : String)
    (hcur : cur ∈ c.keys) (d : ℚ) :
    ∃ tbl, transition_model c cur d = some tbl ∧
      tbl.map Prod.fst ≠ [] ∧ ∀ q ∈ tbl.map Prod.fst, q ∈ c.keys := by
  rw [transition_model, if_pos hcur]
  by_cases h : (c.links cur).length = 0
  · rw [if_pos h]
    refine ⟨_, rfl, ?_, ?_⟩
    · rw [map_fst_pair]
      exact List.ne_nil_of_mem hcur
    · rw [map_fst_pair]
      exact fun q hq => hq
  · rw [if_neg h]
    refine ⟨_, rfl, ?_, ?_⟩
    · rw [List.map_append, map_fst_pair, map_fst_pair]
      intro hcontra
      rw [List.append_eq_nil] at hcontra
      exact h (by rw [hcontra.1]; rfl)
    · rw [List.map_append, map_fst_pair, map_fst_pair]
      intro q hq
      rcases List.mem_append.mp hq with h4 | h4
      · exact ((hv.2 cur hcur).2.1) q h4
      · exact (List.mem_filter.mp h4).1

theorem sampleSteps_ok (c : Corpus) (hv : c.Valid) (d : ℚ)
    (stream : Nat → Nat) :
    ∀ (n i : Nat) (cur : String), cur ∈ c.keys →
      ∃ samples, sampleSteps c d stream i n cur = some samples ∧
        samples.length = n ∧ ∀ s ∈ samples, s ∈ c.keys := by
  intro n
  induction n with
  | zero => exact fun i cur _ => ⟨[], rfl, rfl, by intro s hs; cases hs⟩
  | succ n ih =>
    intro i cur hcur
    obtain ⟨tbl, htbl, hne, hsub⟩ := transition_keys_sub c hv cur hcur d
    cases hks : tbl.map Prod.fst with
    | nil => exact absurd hks hne
    | cons a tail =>
      have hnext : (a :: tail).getD (stream i % (a :: tail).length) a
          ∈ a :: tail := getD_cons_mem a tail _
      have hnextk : (a :: tail).getD (stream i % (a :: tail).length) a
          ∈ c.keys := hsub _ (hks ▸ hnext)
      obtain ⟨rest, hrest, hlen, hmem⟩ := ih (i + 1) _ hnextk
      refine ⟨(a :: tail).getD (stream i % (a :: tail).length) a :: rest,
        ?_, by simp [hlen], ?_⟩
      · rw [sampleSteps, htbl]
        simp only [hks, hrest]
      · intro s hs
        rcases List.mem_cons.mp hs with h4 | h4
        · rw [h4]; exact hnextk
        · exact hmem s h4

theorem sum_indicator (l : List String) (s : String) :
    (l.map (fun p => if p = s then (1:ℕ) else 0)).sum = l.count s := by
  induction l with
  | nil => rfl
  | cons a l ih =>
    by_cases h : a = s
    · subst h
      simp [List.count_cons, ih, Nat.add_comm]
    · have hb1 : (s == a) = false := by simpa using Ne.symm h
      have hb2 : (a == s) = false := by simpa using h
      simp [List.count_cons, ih, h, hb1, hb2]

theorem sum_counts (keys : List String) (hk : keys.Nodup)
    (samples : List String) (hs : ∀ s ∈ samples, s ∈ keys) :
    (keys.map (fun p => samples.count p)).sum = samples.length := by
  induction samples with
  | nil => simp
  | cons s rest ih =>
    have hsk : s ∈ keys := hs s (List.mem_cons_self _ _)
    have hr : ∀ x ∈ rest, x ∈ keys := fun x hx =>
      hs x (List.mem_cons_of_mem _ hx)
    have hcc : ∀ p : String, (s :: rest).count p
        = rest.count p + (if p = s then 1 else 0) := by
      intro p
      by_cases h : p = s <;> simp [List.count_cons, h]
    have hind : (keys.map (fun p => if p = s then (1:ℕ) else 0)).sum
        = keys.count s := sum_indicator keys s
    calc (keys.map (fun p => (s :: rest).count p)).sum
        = (keys.map (fun p => rest.count p + (if p = s then 1 else 0))).sum := by
          simp only [hcc]
      _ = (keys.map (fun p => rest.count p)).sum +
          (keys.map (fun p => if p = s then (1:ℕ) else 0)).sum :=
          sum_map_add keys _ _
      _ = rest.length + keys.count s := by rw [ih hr, hind]
      _ = rest.length + 1 := by rw [List.count_eq_one_of_mem hk hsk]
      _ = (s :: rest).length := by simp [Nat.add_comm]

/-- Claim C9: for a valid non-empty corpus and any n at least 1,
sample_pagerank returns a table with exactly one entry per corpus page
whose value is that page's visit count during the n draws divided by n
(0 for pages never visited); every value lies in [0,1] and the values
sum to 1 exactly, hence within 1e-9.  Quantified over every possible
random stream. -/
theorem sample_pagerank_table (c : Corpus) (d : ℚ) (n : Nat) (stream : Nat → Nat)
    (start : Nat) (hv : c.Valid) (hne : c.keys ≠ []) (hn : 1 ≤ n) :
    ∃ samples : List String, samples.length = n ∧
      sample_pagerank c d n stream start =
        some (c.keys.map (fun p => (p, (samples.count p : ℚ) / (n : ℚ)))) ∧
      (∀ p : String, 0 ≤ (samples.count p : ℚ) / (n : ℚ) ∧
        (samples.count p : ℚ) / (n : ℚ) ≤ 1) ∧
      |sumVals (c.keys.map
        (fun p => (p, (samples.count p : ℚ) / (n : ℚ)))) - 1|
        ≤ 1 / 1000000000 := by
  have h0 : ¬ c.keys.length = 0 := fun h => hne (List.length_eq_zero.mp h)
  have hcur : c.keys.getD (start % c.keys.length) "" ∈ c.keys := by
    have hlt : start % c.keys.length < c.keys.length :=
      Nat.mod_lt _ (Nat.pos_of_ne_zero h0)
    rw [List.getD_eq_get?]
    cases hx : c.keys.get? (start % c.keys.length) with
    | none =>
      exact absurd (List.get?_eq_none.mp hx) (by omega)
    | some x =>
      have := List.get?_mem hx
      simpa using this
  obtain ⟨samples, hsteps, hlen, hmem⟩ :=
    sampleSteps_ok c hv d stream n 0 _ hcur
  have heq := sample_pagerank_eq c d n stream start h0 samples hsteps
  have hnQ : (0:ℚ) < (n:ℚ) := by
    have : 0 < n := hn
    exact_mod_cast this
  have hcount : (c.keys.map (fun p => samples.count p)).sum = n := by
    rw [sum_counts c.keys hv.1 samples hmem, hlen]
  refine ⟨samples, hlen, heq, ?_, ?_⟩
  · intro p
    constructor
    · positivity
    · rw [div_le_one hnQ]
      have h4 : samples.count p ≤ n := hlen ▸ List.count_le_length p samples
      exact_mod_cast h4
  · have hsum : sumVals (c.keys.map
        (fun p => (p, (samples.count p : ℚ) / (n : ℚ)))) = 1 := by
      rw [sumVals, map_snd_pair]
      rw [show (fun p => (samples.count p : ℚ) / (n : ℚ))
        = (fun p => ((fun x => (samples.count x : ℚ)) p) / (n : ℚ)) from rfl]
      rw [sum_map_div, sum_map_cast, hcount]
      exact div_self (ne_of_gt hnQ)
    rw [hsum]
    norm_num

/-- Witness for C9 at a concrete three-page corpus with two draws from
a fixed stream. -/
theorem sample_pagerank_table_witness :
    corpusThree.Valid ∧
    (∃ samples : List String, samples.length = 2 ∧
      sample_pagerank corpusThree (17/20) 2 (fun _ => 0) 0 =
        some (corpusThree.keys.map
          (fun p => (p, (samples.count p : ℚ) / ((2:Nat) : ℚ)))) ∧
      (∀ p : String, 0 ≤ (samples.count p : ℚ) / ((2:Nat) : ℚ) ∧
        (samples.count p : ℚ) / ((2:Nat) : ℚ) ≤ 1) ∧
      |sumVals (corpusThree.keys.map
        (fun p => (p, (samples.count p : ℚ) / ((2:Nat) : ℚ)))) - 1|
        ≤ 1 / 1000000000) :=
  ⟨by decide,
    sample_pagerank_table corpusThree (17/20) 2 (fun _ => 0) 0 (by decide) (by decide)
      (by norm_num)⟩

end PageRank
